import Mathlib

/-!
# Verification of the Braille conversion pipeline

A shallow embedding of the core algorithms of the PDF-to-Braille conversion
service: the Grade-1 Braille transliterator with line wrapping
(`server/services/brailleService.ts`), the AI text-cleanup client and its
chunker (`server/services/groqService.ts` and its variant), the PDF text
extractor fallback chain (`server/services/pdfService.ts`), and the
conversion orchestrator (`server/routes.ts`, `processConversion`).

JavaScript strings are modelled as `List Char` (one entry per UTF-16 code
unit in the source; all inputs of interest are in the Basic Multilingual
Plane, where this matches code points).  Fallible operations return
`Except String` or `Option`; remote calls are modelled by explicit outcome
environments.  Numeric expressions that JavaScript evaluates on floats are
modelled on `ℚ`; every such expression here is far from any rounding
boundary, so the rational value determines the float result.
-/

/-! ## JavaScript string primitives -/

/-- The whitespace characters of the JavaScript `\s` class that occur in the
inputs modelled here (space, tab, newline, carriage return, vertical tab,
form feed).  The exotic Unicode space members of `\s` are omitted; no claim
touches them. -/
def isWsChar (c : Char) : Bool :=
  c = ' ' || c = '\t' || c = '\n' || c = '\r' || c = '\x0b' || c = '\x0c'

/-- `String.prototype.toLowerCase`, restricted to Basic Latin: `A`–`Z` map to
`a`–`z`, everything else is unchanged (which matches JavaScript on every
character the Braille table or the scenarios contain). -/
def upperLowerTable : List (Char × Char) :=
  [('A', 'a'), ('B', 'b'), ('C', 'c'), ('D', 'd'), ('E', 'e'), ('F', 'f'),
   ('G', 'g'), ('H', 'h'), ('I', 'i'), ('J', 'j'), ('K', 'k'), ('L', 'l'),
   ('M', 'm'), ('N', 'n'), ('O', 'o'), ('P', 'p'), ('Q', 'q'), ('R', 'r'),
   ('S', 's'), ('T', 't'), ('U', 'u'), ('V', 'v'), ('W', 'w'), ('X', 'x'),
   ('Y', 'y'), ('Z', 'z')]

/-- Lower-case one character (see `upperLowerTable`). -/
def jsToLower (c : Char) : Char :=
  ((upperLowerTable.find? (fun p => p.1 == c)).map (fun p => p.2)).getD c

/-- `str.split(sep)` for a single-character separator: `""` splits to `[""]`,
and every separator occurrence produces a boundary. -/
def splitOnChar (sep : Char) : List Char → List (List Char)
  | [] => [[]]
  | c :: rest =>
    match splitOnChar sep rest with
    | [] => [[]]
    | h :: t => if c = sep then [] :: h :: t else (c :: h) :: t

/-- `parts.join(sep)` for a single-character separator. -/
def joinSep (sep : Char) : List (List Char) → List Char
  | [] => []
  | [p] => p
  | p :: rest => p ++ sep :: joinSep sep rest

/-- `str.split(/\s+/)`: split on maximal whitespace runs; a leading or
trailing run contributes an empty fragment, and `""` splits to `[""]`,
exactly as in JavaScript. -/
def jsSplitWs (l : List Char) : List (List Char) :=
  let st := l.foldl
    (fun (st : List (List Char) × List Char × Bool) c =>
      if isWsChar c then
        if st.2.2 then st else (st.1 ++ [st.2.1.reverse], [], true)
      else
        (st.1, c :: st.2.1, false))
    ([], [], false)
  st.1 ++ [st.2.1.reverse]

/-- `pat` occurs at the start of `l`. -/
def isPrefixList : List Char → List Char → Bool
  | [], _ => true
  | _ :: _, [] => false
  | p :: ps, c :: cs => p = c && isPrefixList ps cs

/-- `str.lastIndexOf(pat, i)`: the largest index `j ≤ i` at which `pat`
starts in `l` (the match may extend past `i`), or `none` for JavaScript's
`-1`. -/
def lastIndexOfLe (l pat : List Char) : Nat → Option Nat
  | 0 => if isPrefixList pat l then some 0 else none
  | i + 1 =>
    if isPrefixList pat (l.drop (i + 1)) then some (i + 1)
    else lastIndexOfLe l pat i

/-- A JavaScript string index: `-1` encodes "not found". -/
def toJsIdx (o : Option Nat) : ℤ :=
  match o with
  | none => -1
  | some n => n

/-- `str.substring(a, b)` for `a ≤ b` (JavaScript clamps both ends to the
string; `take`/`drop` clamp the same way). -/
def jsSubstring (l : List Char) (a b : Nat) : List Char :=
  (l.drop a).take (b - a)

/-- `str.includes(pat)`. -/
def listIncludes (l pat : List Char) : Bool :=
  (List.range (l.length + 1)).any (fun i => isPrefixList pat (l.drop i))

/-- `str.endsWith(pat)`. -/
def listEndsWith (l pat : List Char) : Bool :=
  pat.length ≤ l.length && isPrefixList pat (l.drop (l.length - pat.length))

/-- `str.trim()`. -/
def jsTrim (l : List Char) : List Char :=
  ((l.dropWhile isWsChar).reverse.dropWhile isWsChar).reverse

/-- `str.replace(/\s+/g, " ")`: each maximal whitespace run becomes one
space, realised by rejoining the `\s+`-split fragments with single spaces. -/
def collapseWs (l : List Char) : List Char :=
  joinSep ' ' (jsSplitWs l)

/-- `Math.round`, which is `⌊x + 1/2⌋` for the (positive) values that occur
here, returned as the `Nat` the progress field stores. -/
def jsRoundNat (q : ℚ) : Nat :=
  (⌊q + 1 / 2⌋).toNat

/-- `Math.ceil` on a non-negative rational, as a `Nat`. -/
def mathCeilNat (q : ℚ) : Nat :=
  (⌈q⌉).toNat

/-! ## Braille service (`server/services/brailleService.ts`)

The Grade-1 character table `brailleMap`, the per-line transliterator
`convertLineToBraille`, the word wrapper `wrapBrailleLine` and the driver
`convertWithLocalMapping` are transcribed from the source.  The inner
`while` loop of `wrapBrailleLine` evaluates `word.substring(maxLength)`
without assigning it, so `word` never shrinks: once entered with
`word.length > maxLength` the loop repeats forever.  The wrapper therefore
returns `Option`, with `none` marking that divergence. -/

/-- The `brailleMap` object literal: each key with its mapped string.  The
`'` and `"` keys are written with `Char.ofNat` (39 and 34). -/
def brailleTable : List (Char × List Char) :=
  [('a', ['⠁']), ('b', ['⠃']), ('c', ['⠉']), ('d', ['⠙']), ('e', ['⠑']),
   ('f', ['⠋']), ('g', ['⠛']), ('h', ['⠓']), ('i', ['⠊']), ('j', ['⠚']),
   ('k', ['⠅']), ('l', ['⠇']), ('m', ['⠍']), ('n', ['⠝']), ('o', ['⠕']),
   ('p', ['⠏']), ('q', ['⠟']), ('r', ['⠗']), ('s', ['⠎']), ('t', ['⠞']),
   ('u', ['⠥']), ('v', ['⠧']), ('w', ['⠺']), ('x', ['⠭']), ('y', ['⠽']),
   ('z', ['⠵']),
   ('1', ['⠼', '⠁']), ('2', ['⠼', '⠃']), ('3', ['⠼', '⠉']),
   ('4', ['⠼', '⠙']), ('5', ['⠼', '⠑']), ('6', ['⠼', '⠋']),
   ('7', ['⠼', '⠛']), ('8', ['⠼', '⠓']), ('9', ['⠼', '⠊']),
   ('0', ['⠼', '⠚']),
   ('.', ['⠲']), (',', ['⠂']), (';', ['⠆']), (':', ['⠒']), ('!', ['⠖']),
   ('?', ['⠦']), (Char.ofNat 39, ['⠄']), (Char.ofNat 34, ['⠦']),
   ('(', ['⠷']), (')', ['⠾']), ('-', ['⠤']), (' ', [' ']),
   ('\n', ['\n']), ('\r', []), ('\t', [' '])]

/-- `this.brailleMap[char]` as an optional value. -/
def brailleMapLookup (c : Char) : Option (List Char) :=
  (brailleTable.find? (fun p => p.1 == c)).map (fun p => p.2)

/-- The `else` branches of the per-character loop: an `A`–`Z` character gets
the capital sign plus its lower-case cell (`'⠠' + map[lower]`; an absent
entry would coerce to the text `undefined`, as in JavaScript), and any other
character passes through unchanged. -/
def fallbackCell (c : Char) : List Char :=
  if 'A' ≤ c ∧ c ≤ 'Z' then
    '⠠' :: ((brailleMapLookup (jsToLower c)).getD ("undefined".toList))
  else [c]

/-- One character of `convertLineToBraille`: the `if (this.brailleMap[char])`
test is JavaScript truthiness, so the empty-string entry for `'\r'` fails it
and falls through to `fallbackCell`. -/
def brailleCell (c : Char) : List Char :=
  match brailleMapLookup c with
  | some s => if s ≠ [] then s else fallbackCell c
  | none => fallbackCell c

/-- `convertLineToBraille(line)`: iterate over `line.toLowerCase()` and
append each character's cell (the accumulation loop is concatenation). -/
def convertLineToBraille (line : List Char) : List Char :=
  ((line.map jsToLower).map brailleCell).flatten

/-- The state of `wrapBrailleLine`'s loop: the `wrappedLines` array and the
`currentLine` accumulator. -/
structure WrapState where
  wrapped : List (List Char)
  current : List Char
  deriving DecidableEq, Repr

/-- One iteration of `wrapBrailleLine`'s `for` loop.  In the final branch
(`currentLine` empty, word too long) the source's `while` loop never
shortens `word`, so it never terminates: that is the `none` result. -/
def wrapStep (maxLength : Nat) (st : WrapState) (word : List Char) :
    Option WrapState :=
  if st.current.length + word.length + 1 ≤ maxLength then
    some ⟨st.wrapped, st.current ++ (if st.current ≠ [] then ' ' :: word else word)⟩
  else if st.current ≠ [] then
    some ⟨st.wrapped ++ [st.current], word⟩
  else if maxLength < word.length then
    none
  else
    some ⟨st.wrapped, word⟩

/-- `wrapBrailleLine(line, maxLength)`; `none` when the hard-split loop is
entered and diverges. -/
def wrapBrailleLine (line : List Char) (maxLength : Nat) :
    Option (List (List Char)) := do
  let st ← (splitOnChar ' ' line).foldlM (wrapStep maxLength) ⟨[], []⟩
  return if st.current ≠ [] then st.wrapped ++ [st.current] else st.wrapped

/-- The result record of the Braille conversion. -/
structure BrailleConversionResult where
  brailleText : List Char
  pageCount : Nat
  deriving DecidableEq, Repr

/-- The body of `convertWithLocalMapping`'s line loop: convert a line and
append it, wrapped when longer than 40 cells. -/
def convertLineStep (acc : List (List Char)) (line : List Char) :
    Option (List (List Char)) := do
  let bl := convertLineToBraille line
  if bl.length > 40 then
    let w ← wrapBrailleLine bl 40
    return acc ++ w
  else
    return acc ++ [bl]

/-- The `brailleLines` array accumulated by `convertWithLocalMapping`. -/
def convertBrailleLines (text : List Char) : Option (List (List Char)) :=
  (splitOnChar '\n' text).foldlM convertLineStep []

/-- `convertWithLocalMapping(text)`: join the accumulated lines with `'\n'`
and compute `Math.ceil(brailleLines.length / 25)`. -/
def convertWithLocalMapping (text : List Char) :
    Option BrailleConversionResult := do
  let brailleLines ← convertBrailleLines text
  return ⟨joinSep '\n' brailleLines,
          mathCeilNat ((brailleLines.length : ℚ) / 25)⟩

/-- The per-line progress fractions `processedLines / lines.length` reported
by `convertWithLocalMapping` while it runs. -/
def localBrailleFracs (m : Nat) : List ℚ :=
  (List.range m).map (fun (k : Nat) => ((k : ℚ) + 1) / (m : ℚ))

/-- The number of lines of an output text, counting the empty output as zero
lines and otherwise counting newline-separated lines. -/
def outputLineCount (t : List Char) : Nat :=
  if t = [] then 0 else (splitOnChar '\n' t).length

/-! ## AI cleanup client (`server/services/groqService.ts` and the
`groq-sdk` variant)

`splitTextIntoChunks` is identical in both variants.  The chunk loop with
rate-limit short-circuit is from the `groq-sdk` variant's
`cleanAndValidateText` (the variant the error-handling spec describes); the
no-credential early return is identical in both. -/

/-- The adjusted `endPos` of one `splitTextIntoChunks` iteration: cap at
`currentPos + chunkSize`, then prefer a paragraph break (`"\n\n"`), else a
sentence end (`". "`), when one lies beyond `currentPos + chunkSize * 0.5`. -/
def computeEndPos (text : List Char) (chunkSize currentPos : Nat) : Nat :=
  let endPos := min (currentPos + chunkSize) text.length
  if endPos < text.length then
    let lastParagraph := lastIndexOfLe text ('\n' :: '\n' :: []) endPos
    let lastSentence := lastIndexOfLe text ('.' :: ' ' :: []) endPos
    if ((toJsIdx lastParagraph : ℚ)) > (currentPos : ℚ) + (chunkSize : ℚ) * (1/2) then
      (lastParagraph.getD 0) + 2
    else if ((toJsIdx lastSentence : ℚ)) > (currentPos : ℚ) + (chunkSize : ℚ) * (1/2) then
      (lastSentence.getD 0) + 2
    else endPos
  else endPos

/-- The `while (currentPos < text.length)` loop of `splitTextIntoChunks`,
with fuel: `none` means the fuel ran out before the loop finished (with
`chunkSize = 0` the source loop makes no progress and never finishes). -/
def splitChunksGo : Nat → List Char → Nat → Nat → Option (List (List Char))
  | 0, _, _, _ => none
  | fuel + 1, text, chunkSize, currentPos =>
    if currentPos < text.length then
      let endPos := computeEndPos text chunkSize currentPos
      match splitChunksGo fuel text chunkSize endPos with
      | some rest => some (jsSubstring text currentPos endPos :: rest)
      | none => none
    else some []

/-- `splitTextIntoChunks(text, chunkSize)`; `text.length + 1` fuel is enough
for any positive chunk size. -/
def splitTextIntoChunks (text : List Char) (chunkSize : Nat) :
    Option (List (List Char)) :=
  splitChunksGo (text.length + 1) text chunkSize 0

/-- The result record of `cleanAndValidateText`. -/
structure AICleanupResult where
  cleanedText : List Char
  wordCount : Nat
  enhancements : List (List Char)
  deriving DecidableEq, Repr

/-- The enhancement note appended when a cleaned chunk differs from its
input. -/
def chunkNote (n : Nat) : List Char :=
  "Chunk ".toList ++ (toString n).toList ++ ": Text cleaned and optimized".toList

/-- The single note appended when a rate-limit-shaped error short-circuits
the remaining chunks. -/
def rateLimitNote : List Char :=
  "AI processing limited due to rate limits - using original text".toList

/-- The note returned when no API credential is configured. -/
def disabledNote : List Char :=
  "AI processing disabled - using original text".toList

/-- The outcome of one chunk's completion request: a response body, a
rate-limit-shaped error, or any other error. -/
inductive ChunkOutcome
  | ok (content : List Char)
  | rateLimit
  | err
  deriving DecidableEq, Repr

/-- The chunk loop of `cleanAndValidateText`, accumulating `cleanedChunks`
and `enhancements`.  On `ok`, an empty response body is falsy and falls back
to the original chunk; on a rate-limit-shaped error all remaining chunks
(`chunks.slice(i)`) are appended verbatim with one note and the loop breaks;
on any other error the current chunk is appended verbatim and the loop
continues. -/
def processChunksGo (f : Nat → ChunkOutcome) :
    Nat → List (List Char) → List (List Char) × List (List Char)
  | _, [] => ([], [])
  | i, c :: rest =>
    match f i with
    | .ok content =>
      let cleaned := if content = [] then c else content
      let r := processChunksGo f (i + 1) rest
      (cleaned :: r.1,
       (if cleaned ≠ c then [chunkNote (i + 1)] else []) ++ r.2)
    | .rateLimit => (c :: rest, [rateLimitNote])
    | .err =>
      let r := processChunksGo f (i + 1) rest
      (c :: r.1, r.2)

/-- The chunk loop started at index 0. -/
def processChunks (f : Nat → ChunkOutcome) (chunks : List (List Char)) :
    List (List Char) × List (List Char) :=
  processChunksGo f 0 chunks

/-- Join cleaned chunks with the blank-line separator `"\n\n"`. -/
def joinBlankLine : List (List Char) → List Char
  | [] => []
  | [p] => p
  | p :: rest => p ++ '\n' :: '\n' :: joinBlankLine rest

/-- The environment of one `cleanAndValidateText` run: whether a credential
is configured, the outcome of the initial rate-limit probe, and the outcome
of each chunk's completion request. -/
structure GroqEnv where
  hasKey : Bool
  probeRateLimited : Bool
  chunkOutcome : Nat → ChunkOutcome

/-- `cleanAndValidateText(text)` together with the progress fractions it
reports, in order.  With no credential the input is returned unchanged at
once with progress 1 and the disabled note; a rate-limited probe returns the
input unchanged with a skip note; otherwise the text is chunked (the
`groq-sdk` variant's chunk size is 12000) and the chunk loop runs. -/
def cleanAndValidateText (env : GroqEnv) (text : List Char) :
    Option (AICleanupResult × List ℚ) :=
  if !env.hasKey then
    some (⟨text, (jsSplitWs text).length, [disabledNote]⟩, [1])
  else if env.probeRateLimited then
    some (⟨text, (jsSplitWs text).length,
           ["AI processing skipped due to rate limits - using original text".toList]⟩, [1])
  else do
    let chunks ← splitTextIntoChunks text 12000
    let r := processChunks env.chunkOutcome chunks
    let cleanedText := joinBlankLine r.1
    let fracs := (List.range chunks.length).map
      (fun (i : Nat) => (i : ℚ) / (chunks.length : ℚ)) ++ [1]
    return (⟨cleanedText, (jsSplitWs cleanedText).length, r.2⟩, fracs)

/-! ## PDF text extractor (`server/services/pdfService.ts`)

The fallback chain of `extractTextWithPdfParse` and the wrappers
`extractTextFromFile` / `extractTextFromUrl`.  The library calls (the
`pdf-parse` and `pdf2json` imports and invocations, and the OCR pipeline
`extractTextWithOCR`, which is I/O-bound) are modelled as outcome fields of
an environment record; the control flow around them is transcribed. -/

/-- What `pdf-parse` returned: the text layer and `numpages`. -/
structure PdfParseData where
  text : List Char
  numpages : Nat
  deriving DecidableEq, Repr

/-- The events of the `pdf2json` promise: a `pdfParser_dataError`, or a
`pdfParser_dataReady` whose payload may lack `formImage.Pages`
(`none`) or carry pages, each a list of decoded text runs. -/
inductive Pdf2JsonOutcome
  | dataError
  | dataReady (pages : Option (List (List (List Char))))

/-- One extraction run's environment: each external library's outcome. -/
structure PdfEnv where
  pdfParseImportOk : Bool
  parseResult : Option PdfParseData
  pdf2jsonImportOk : Bool
  pdf2jsonConstructOk : Bool
  pdf2jsonOutcome : Pdf2JsonOutcome
  ocrResult : Except (List Char) (List Char × Nat)
  downloadOk : Bool

/-- The text `pdf2json`'s `dataReady` handler assembles: every run of every
page followed by a space, and a newline after each page. -/
def pdf2jsonAllText (pages : List (List (List Char))) : List Char :=
  pages.foldl
    (fun acc runs =>
      acc ++ runs.foldl (fun a r => a ++ r ++ [' ']) [] ++ ['\n'])
    []

/-- The body of `extractTextWithPdfParse`'s outer `try` block: the
`pdf-parse` attempt, the insufficient-text check, and the `pdf2json`
fallback. -/
def extractInner (env : PdfEnv) : Except (List Char) (List Char × Nat) :=
  if !env.pdfParseImportOk then
      -- import failed: "Falling back to OCR text extraction"
      env.ocrResult
    else
      match env.parseResult with
      | none => .error ("pdf-parse threw".toList)
      | some d =>
        let extractedText := d.text
        let pageCount := if d.numpages = 0 then 1 else d.numpages
        let meaningfulText := collapseWs (jsTrim extractedText)
        if meaningfulText.length > 100 then
          .ok (extractedText, pageCount)
        else if !env.pdf2jsonImportOk then
          .ok ((if extractedText = []
                then "PDF extraction failed - fallback library not available".toList
                else extractedText), pageCount)
        else if env.pdf2jsonConstructOk then
          match env.pdf2jsonOutcome with
          | .dataError => .ok ("PDF parsing failed with pdf2json".toList, 1)
          | .dataReady none => .ok ("PDF structure not readable".toList, 1)
          | .dataReady (some pages) =>
            let allText := pdf2jsonAllText pages
            .ok ((if allText = []
                  then "No readable text found in PDF".toList else allText),
                 if pages.length = 0 then 1 else pages.length)
        else
          -- catch (pdf2jsonError): OCR once more when very little text, then
          -- return the pdf-parse text or a placeholder
          match (if meaningfulText.length < 50 then env.ocrResult
                 else .error []) with
          | .ok r => .ok r
          | .error _ =>
            .ok ((if extractedText = []
                  then "No readable text found in PDF".toList
                  else extractedText), pageCount)

/-- `extractTextWithPdfParse(buffer)`.  The outer `try` falls back to OCR on
any thrown error and raises `All text extraction methods failed` only when
that OCR fallback also raises. -/
def extractTextWithPdfParse (env : PdfEnv) : Except (List Char) (List Char × Nat) :=
  match extractInner env with
  | .ok r => .ok r
  | .error _ =>
    match env.ocrResult with
    | .ok r => .ok r
    | .error _ => .error ("All text extraction methods failed".toList)

/-- The result record of the extractor. -/
structure TextExtractionResult where
  text : List Char
  pageCount : Nat
  fileSize : Nat
  deriving DecidableEq, Repr

/-- `extractTextFromFile(objectFile)`: download, parse, and rethrow any
error with the fixed prefix. -/
def extractTextFromFile (env : PdfEnv) (buffer : List Char) :
    Except (List Char) TextExtractionResult :=
  let r :=
    if !env.downloadOk then .error ("download failed".toList)
    else extractTextWithPdfParse env
  match r with
  | .ok (t, pc) => .ok ⟨t, pc, buffer.length⟩
  | .error e => .error ("Failed to extract text from PDF file: ".toList ++ e)

/-- The PDF classification of `extractTextFromUrl`: content-type contains
`application/pdf`, or the lower-cased URL ends in `.pdf`, or the first four
bytes are `%PDF`. -/
def urlBodyIsPdf (url contentType buffer : List Char) : Bool :=
  listIncludes contentType ("application/pdf".toList) ||
  listEndsWith (url.map jsToLower) (".pdf".toList) ||
  buffer.take 4 = "%PDF".toList

/-- `extractTextFromUrl(url)`: on a successful fetch, PDF-classified bodies
go through the parse chain and any other body is returned as plain text with
page count 1; every thrown error becomes the fixed URL failure message. -/
def extractTextFromUrl (env : PdfEnv) (url contentType buffer : List Char)
    (responseOk : Bool) : Except (List Char) TextExtractionResult :=
  if !responseOk then .error ("Failed to extract text from URL".toList)
  else if urlBodyIsPdf url contentType buffer then
    match extractTextWithPdfParse env with
    | .ok (t, pc) => .ok ⟨t, pc, buffer.length⟩
    | .error _ => .error ("Failed to extract text from URL".toList)
  else
    .ok ⟨buffer, 1, buffer.length⟩

/-! ## Conversion orchestrator (`server/routes.ts`, `processConversion`)

The orchestrator is modelled by the ordered list of `storage.updateConversion`
calls a run issues (restricted to the `status` / `currentStage` / `progress`
fields, the ones the claims are about).  Each remote stage's outcome is an
environment field; the progress fractions the AI-cleanup and Braille stages
report through their `onProgress` callbacks are transcribed from those
services' call sites. -/

/-- One `storage.updateConversion` call (the claim-relevant fields). -/
structure JobUpdate where
  status : Option String := none
  stage : Option String := none
  progress : Option Nat := none
  deriving DecidableEq, Repr

/-- A job record's claim-relevant fields. -/
structure JobRec where
  status : String
  stage : String
  progress : Nat
  deriving DecidableEq, Repr

/-- Apply one partial update to a job record. -/
def applyUpdate (j : JobRec) (u : JobUpdate) : JobRec :=
  ⟨u.status.getD j.status, u.stage.getD j.stage, u.progress.getD j.progress⟩

/-- The record `createConversion` writes. -/
def initialJob : JobRec :=
  ⟨"pending", "initializing", 0⟩

/-- The update written in the `catch` block on any stage-fatal error. -/
def failWrite : JobUpdate :=
  ⟨some "failed", some "Error", some 0⟩

/-- How the Braille stage ran: the online translator returned non-empty
text; it returned empty text and the local mapping ran over `m` lines; it
threw and the local mapping ran over `m` lines; or the local mapping's
wrap loop diverged after `k` of `m` lines. -/
inductive BrailleOutcome
  | online
  | onlineEmptyLocal (m : Nat)
  | localDone (m : Nat)
  | localHung (m k : Nat)

/-- One conversion run's environment. -/
structure OrchEnv where
  atCapacity : Bool
  jobFound : Bool
  sourceIsPdf : Bool
  hasPath : Bool
  hasUrl : Bool
  getFileOk : Bool
  extractOk : Bool
  apiKeyPresent : Bool
  aiChunkCount : Nat
  saveCleanedOk : Bool
  brailleOutcome : BrailleOutcome
  saveBrailleOk : Bool
  saveReportOk : Bool

/-- The progress fractions `cleanAndValidateText` reports: `i / chunks.length`
before each chunk and `1` at the end; just `1` when no credential is
configured. -/
def aiProgressFracs (hasKey : Bool) (n : Nat) : List ℚ :=
  if hasKey then (List.range n).map (fun (i : Nat) => (i : ℚ) / (n : ℚ)) ++ [1]
  else [1]

/-- The progress fractions `convertToBraille` reports: `0.1` before the
online attempt, `1.0` after it returns (also when it returns empty text and
the local fallback then runs), and `processedLines / lines.length` per line
of the local mapping — a prefix of those when the wrap loop diverges. -/
def brailleProgressFracs : BrailleOutcome → List ℚ
  | .online => [0.1, 1]
  | .onlineEmptyLocal m => 0.1 :: 1 :: localBrailleFracs m
  | .localDone m => 0.1 :: localBrailleFracs m
  | .localHung m k => 0.1 :: (localBrailleFracs m).take k

/-- An AI-cleanup progress callback write:
`Math.round(30 + progress * 0.4)`. -/
def aiProgressWrite (p : ℚ) : JobUpdate :=
  { progress := some (jsRoundNat (30 + p * (4/10))) }

/-- A Braille-conversion progress callback write:
`Math.round(75 + progress * 0.15)`. -/
def brailleProgressWrite (p : ℚ) : JobUpdate :=
  { progress := some (jsRoundNat (75 + p * (15/100))) }

/-- Did the extraction stage complete (source locator present, storage
fetch succeeded, extractor returned)? -/
def extractStageOk (env : OrchEnv) : Bool :=
  if env.sourceIsPdf then env.hasPath && env.getFileOk && env.extractOk
  else env.hasUrl && env.extractOk

/-- Did `convertToBraille` return (as opposed to the local wrap loop
diverging)? -/
def brailleReturns (env : OrchEnv) : Bool :=
  match env.brailleOutcome with
  | .localHung _ _ => false
  | _ => true

/-- Did the whole pipeline reach the `completed` write? -/
def pipelineSucceeds (env : OrchEnv) : Bool :=
  extractStageOk env && env.saveCleanedOk &&
    (brailleReturns env && (env.saveBrailleOk && env.saveReportOk))

/-- The updates written from the Braille-conversion write onward. -/
def brailleStageWrites (env : OrchEnv) : List JobUpdate :=
  ({ status := some "converting", stage := some "Braille Conversion",
     progress := some 75 } : JobUpdate) ::
  ((brailleProgressFracs env.brailleOutcome).map brailleProgressWrite ++
    if brailleReturns env then
      if env.saveBrailleOk then
        ({ progress := some 90 } : JobUpdate) ::
        ({ stage := some "AI Quality Validation", progress := some 95 } : JobUpdate) ::
        (if env.saveReportOk then
          [{ status := some "completed", stage := some "Complete",
             progress := some 100 }]
        else [failWrite])
      else [failWrite]
    else [])

/-- The updates written from the AI-review write onward. -/
def aiStageWrites (env : OrchEnv) : List JobUpdate :=
  ({ status := some "ai_reviewing", stage := some "AI Text Review & Cleanup",
     progress := some 30 } : JobUpdate) ::
  ((aiProgressFracs env.apiKeyPresent env.aiChunkCount).map aiProgressWrite ++
    if env.saveCleanedOk then
      ({ progress := some 70 } : JobUpdate) :: brailleStageWrites env
    else [failWrite])

/-- The ordered list of `storage.updateConversion` calls one
`processConversion` run issues.  A job over the concurrency cap first gets
the `queued` write; a missing job record produces no writes; each stage
writes its entry update, then its work's writes, and any stage-fatal error
produces exactly the one `failWrite` and ends the run. -/
def processWrites (env : OrchEnv) : List JobUpdate :=
  (if env.atCapacity then
    [{ status := some "queued", stage := some "Waiting in queue",
       progress := some 5 }]
   else []) ++
  if env.jobFound then
    ({ status := some "extracting", stage := some "Text Extraction",
       progress := some 10 } : JobUpdate) ::
    (if extractStageOk env then
      ({ progress := some 25 } : JobUpdate) :: aiStageWrites env
     else [failWrite])
  else []

/-- The job record after a run's writes are applied in order. -/
def finalJob (env : OrchEnv) : JobRec :=
  (processWrites env).foldl applyUpdate initialJob

/-- The time-ordered progress values a run writes. -/
def progressTrace (env : OrchEnv) : List Nat :=
  (processWrites env).filterMap (fun u => u.progress)

/-! ## General lemmas about the string primitives -/

theorem splitOnChar_ne_nil (sep : Char) (l : List Char) :
    splitOnChar sep l ≠ [] := by
  induction l with
  | nil => simp [splitOnChar]
  | cons c rest ih =>
    rcases hsp : splitOnChar sep rest with _ | ⟨hh, tt⟩
    · exact absurd hsp ih
    · show (match splitOnChar sep rest with
            | [] => [[]]
            | h :: t => if c = sep then [] :: h :: t else (c :: h) :: t) ≠ []
      rw [hsp]
      show (if c = sep then [] :: hh :: tt else (c :: hh) :: tt) ≠ []
      split <;> simp

theorem splitOnChar_cons_of_eq {sep c : Char} {rest : List Char}
    {hh : List Char} {tt : List (List Char)}
    (h : splitOnChar sep rest = hh :: tt) :
    splitOnChar sep (c :: rest) =
      if c = sep then [] :: hh :: tt else (c :: hh) :: tt := by
  show (match splitOnChar sep rest with
        | [] => [[]]
        | h :: t => if c = sep then [] :: h :: t else (c :: h) :: t) = _
  rw [h]

theorem mem_of_mem_splitOnChar (sep : Char) :
    ∀ (l : List Char) (p : List Char), p ∈ splitOnChar sep l →
      ∀ x ∈ p, x ∈ l := by
  intro l
  induction l with
  | nil =>
    intro p hp x hx
    simp [splitOnChar] at hp
    subst hp
    simp at hx
  | cons c rest ih =>
    intro p hp x hx
    rcases hsp : splitOnChar sep rest with _ | ⟨hh, tt⟩
    · exact absurd hsp (splitOnChar_ne_nil sep rest)
    · rw [splitOnChar_cons_of_eq hsp] at hp
      split at hp
      · rcases List.mem_cons.mp hp with rfl | hp'
        · simp at hx
        · exact List.mem_cons_of_mem _ (ih p (hsp ▸ hp') x hx)
      · rcases List.mem_cons.mp hp with rfl | hp'
        · rcases List.mem_cons.mp hx with rfl | hx'
          · exact List.mem_cons_self _ _
          · exact List.mem_cons_of_mem _
              (ih hh (hsp ▸ List.mem_cons_self hh tt) x hx')
        · exact List.mem_cons_of_mem _
            (ih p (hsp ▸ List.mem_cons_of_mem _ hp') x hx)

theorem sep_not_mem_of_mem_splitOnChar (sep : Char) :
    ∀ (l : List Char) (p : List Char), p ∈ splitOnChar sep l → sep ∉ p := by
  intro l
  induction l with
  | nil =>
    intro p hp
    simp [splitOnChar] at hp
    subst hp
    simp
  | cons c rest ih =>
    intro p hp
    rcases hsp : splitOnChar sep rest with _ | ⟨hh, tt⟩
    · exact absurd hsp (splitOnChar_ne_nil sep rest)
    · rw [splitOnChar_cons_of_eq hsp] at hp
      split at hp
      · rcases List.mem_cons.mp hp with rfl | hp'
        · simp
        · exact ih p (hsp ▸ hp')
      · rename_i hcs
        rcases List.mem_cons.mp hp with rfl | hp'
        · intro hmem
          rcases List.mem_cons.mp hmem with rfl | hmem'
          · exact hcs rfl
          · exact ih hh (hsp ▸ List.mem_cons_self hh tt) hmem'
        · exact ih p (hsp ▸ List.mem_cons_of_mem _ hp')

theorem splitOnChar_of_not_mem {sep : Char} {p : List Char} (h : sep ∉ p) :
    splitOnChar sep p = [p] := by
  induction p with
  | nil => simp [splitOnChar]
  | cons c rest ih =>
    have hc : c ≠ sep := fun hc => h (hc ▸ List.mem_cons_self c rest)
    have hrest : sep ∉ rest := fun hm => h (List.mem_cons_of_mem _ hm)
    rw [splitOnChar_cons_of_eq (ih hrest), if_neg hc]

theorem splitOnChar_append_cons {sep : Char} {p : List Char} (t : List Char)
    (h : sep ∉ p) :
    splitOnChar sep (p ++ sep :: t) = p :: splitOnChar sep t := by
  induction p with
  | nil =>
    rcases hsp : splitOnChar sep t with _ | ⟨hh, tt⟩
    · exact absurd hsp (splitOnChar_ne_nil sep t)
    · rw [List.nil_append]
      rw [splitOnChar_cons_of_eq (c := sep) hsp]
      rw [if_pos rfl]
  | cons c rest ih =>
    have hc : c ≠ sep := fun hc => h (hc ▸ List.mem_cons_self c rest)
    have hrest : sep ∉ rest := fun hm => h (List.mem_cons_of_mem _ hm)
    have hih := ih hrest
    show splitOnChar sep (c :: (rest ++ sep :: t)) = _
    rw [splitOnChar_cons_of_eq hih, if_neg hc]

theorem splitOnChar_joinSep {sep : Char} :
    ∀ (ls : List (List Char)), (∀ p ∈ ls, sep ∉ p) → ls ≠ [] →
      splitOnChar sep (joinSep sep ls) = ls := by
  intro ls
  induction ls with
  | nil => intro _ hne; exact absurd rfl hne
  | cons p rest ih =>
    intro hfree _
    cases rest with
    | nil =>
      exact splitOnChar_of_not_mem (hfree p (List.mem_cons_self p []))
    | cons q rest' =>
      have hp : sep ∉ p := hfree p (List.mem_cons_self _ _)
      have hrest : ∀ x ∈ q :: rest', sep ∉ x :=
        fun x hx => hfree x (List.mem_cons_of_mem _ hx)
      show splitOnChar sep (p ++ sep :: joinSep sep (q :: rest')) = _
      rw [splitOnChar_append_cons _ hp, ih hrest (by simp)]

theorem joinSep_eq_nil {sep : Char} {ls : List (List Char)}
    (h : joinSep sep ls = []) : ls = [] ∨ ls = [[]] := by
  match ls with
  | [] => exact Or.inl rfl
  | [p] => exact Or.inr (by simpa [joinSep] using h)
  | p :: q :: rest =>
    exfalso
    have h' : p ++ sep :: joinSep sep (q :: rest) = [] := h
    simp at h'

theorem mathCeilNat_div25_eq_zero (n : Nat) :
    mathCeilNat ((n : ℚ) / 25) = 0 ↔ n = 0 := by
  unfold mathCeilNat
  rw [Int.toNat_eq_zero]
  constructor
  · intro h
    by_contra hn
    have hpos : (0 : ℚ) < (n : ℚ) / 25 := by
      have hn' : (0 : ℚ) < (n : ℚ) := by
        exact_mod_cast Nat.pos_of_ne_zero hn
      positivity
    exact absurd (Int.ceil_pos.mpr hpos) (by omega)
  · rintro rfl
    simp

/-! ## Lemmas about the Braille transliterator -/

theorem brailleMapLookup_eq_some {c : Char} {s : List Char}
    (h : brailleMapLookup c = some s) :
    ∃ p ∈ brailleTable, p.1 = c ∧ p.2 = s := by
  unfold brailleMapLookup at h
  cases hf : brailleTable.find? (fun p => p.1 == c) with
  | none => rw [hf] at h; simp at h
  | some p =>
    rw [hf] at h
    have hpc := List.find?_some hf
    simp only [beq_iff_eq] at hpc
    refine ⟨p, List.mem_of_find?_eq_some hf, hpc, ?_⟩
    simpa using h

theorem newline_brailleTable :
    ∀ p ∈ brailleTable, '\n' ∈ p.2 → p.1 = '\n' := by decide

theorem jsToLower_eq_newline {c : Char} (h : jsToLower c = '\n') :
    c = '\n' := by
  unfold jsToLower at h
  cases hf : upperLowerTable.find? (fun p => p.1 == c) with
  | none =>
    rw [hf] at h
    exact h
  | some p =>
    rw [hf] at h
    have h2 : p.2 = '\n' := h
    have hmem := List.mem_of_find?_eq_some hf
    have hall : ∀ q ∈ upperLowerTable, q.2 ≠ '\n' := by decide
    exact absurd h2 (hall p hmem)

theorem newline_not_mem_brailleCell {c : Char} (hc : c ≠ '\n') :
    '\n' ∉ brailleCell c := by
  have hfall : '\n' ∉ fallbackCell c := by
    unfold fallbackCell
    split
    · intro hmem
      rcases List.mem_cons.mp hmem with h1 | h1
      · exact absurd h1.symm (by decide)
      · cases hl : brailleMapLookup (jsToLower c) with
        | none =>
          rw [hl] at h1
          exact absurd h1 (by decide)
        | some v =>
          rw [hl] at h1
          obtain ⟨p, hp, hp1, hp2⟩ := brailleMapLookup_eq_some hl
          have hkey := newline_brailleTable p hp (hp2 ▸ h1)
          exact hc (jsToLower_eq_newline (hp1 ▸ hkey))
    · intro hmem
      rcases List.mem_cons.mp hmem with h1 | h1
      · exact hc h1.symm
      · simp at h1
  unfold brailleCell
  cases hl : brailleMapLookup c with
  | none => exact hfall
  | some s =>
    show '\n' ∉ (if s ≠ [] then s else fallbackCell c)
    by_cases hs : s = []
    · rw [if_neg (not_not_intro hs)]
      exact hfall
    · rw [if_pos hs]
      intro hmem
      obtain ⟨p, hp, hp1, hp2⟩ := brailleMapLookup_eq_some hl
      exact hc (hp1 ▸ newline_brailleTable p hp (hp2 ▸ hmem))

theorem newline_not_mem_convertLine {line : List Char} (h : '\n' ∉ line) :
    '\n' ∉ convertLineToBraille line := by
  unfold convertLineToBraille
  intro hmem
  rw [List.mem_flatten] at hmem
  obtain ⟨cell, hcell, hnl⟩ := hmem
  rw [List.mem_map] at hcell
  obtain ⟨d, hd, rfl⟩ := hcell
  rw [List.mem_map] at hd
  obtain ⟨c, hcmem, rfl⟩ := hd
  by_cases hdn : jsToLower c = '\n'
  · exact h (jsToLower_eq_newline hdn ▸ hcmem)
  · exact newline_not_mem_brailleCell hdn hnl

/-- The invariant of the wrap loop: no accumulated line and no current line
contains a newline. -/
def WrapNoNl (st : WrapState) : Prop :=
  (∀ l ∈ st.wrapped, '\n' ∉ l) ∧ '\n' ∉ st.current

theorem wrapStep_no_newline {ml : Nat} {st st' : WrapState} {w : List Char}
    (hst : WrapNoNl st) (hw : '\n' ∉ w)
    (h : wrapStep ml st w = some st') : WrapNoNl st' := by
  unfold wrapStep at h
  split at h
  · cases h
    refine ⟨hst.1, ?_⟩
    intro hmem
    rcases List.mem_append.mp hmem with h1 | h1
    · exact hst.2 h1
    · split at h1
      · rcases List.mem_cons.mp h1 with h2 | h2
        · exact absurd h2.symm (by decide)
        · exact hw h2
      · exact hw h1
  · split at h
    · cases h
      refine ⟨?_, hw⟩
      intro l hl
      rcases List.mem_append.mp hl with h1 | h1
      · exact hst.1 l h1
      · rw [List.mem_singleton] at h1
        exact h1 ▸ hst.2
    · split at h
      · exact absurd h (by simp)
      · cases h
        exact ⟨hst.1, hw⟩

theorem wrapFold_no_newline {ml : Nat} :
    ∀ (words : List (List Char)) (st st' : WrapState),
      (∀ w ∈ words, '\n' ∉ w) → WrapNoNl st →
      List.foldlM (wrapStep ml) st words = some st' → WrapNoNl st' := by
  intro words
  induction words with
  | nil =>
    intro st st' _ hst h
    exact (Option.some_inj.mp h) ▸ hst
  | cons w ws ih =>
    intro st st' hws hst h
    simp only [List.foldlM] at h
    cases hstep : wrapStep ml st w with
    | none =>
      rw [hstep] at h
      exact Option.noConfusion h
    | some st1 =>
      rw [hstep] at h
      exact ih st1 st'
        (fun x hx => hws x (List.mem_cons_of_mem _ hx))
        (wrapStep_no_newline hst (hws w (List.mem_cons_self _ _)) hstep) h

theorem wrapBrailleLine_no_newline {bl : List Char} {ml : Nat}
    {ws : List (List Char)} (hb : '\n' ∉ bl)
    (h : wrapBrailleLine bl ml = some ws) : ∀ w ∈ ws, '\n' ∉ w := by
  unfold wrapBrailleLine at h
  cases hfold : List.foldlM (wrapStep ml) ⟨[], []⟩ (splitOnChar ' ' bl) with
  | none =>
    rw [hfold] at h
    exact Option.noConfusion h
  | some st =>
    rw [hfold] at h
    have hval : (if st.current ≠ [] then st.wrapped ++ [st.current]
        else st.wrapped) = ws := Option.some_inj.mp h
    have hwords : ∀ w ∈ splitOnChar ' ' bl, '\n' ∉ w := by
      intro w hw hmem
      exact hb (mem_of_mem_splitOnChar ' ' bl w hw '\n' hmem)
    have hst : WrapNoNl st :=
      wrapFold_no_newline _ _ _ hwords ⟨by simp, by simp⟩ hfold
    subst hval
    split
    · intro w hw
      rcases List.mem_append.mp hw with h1 | h1
      · exact hst.1 w h1
      · rw [List.mem_singleton] at h1
        exact h1 ▸ hst.2
    · exact hst.1

theorem convertLineStep_no_newline {acc acc' : List (List Char)}
    {line : List Char} (hacc : ∀ l ∈ acc, '\n' ∉ l) (hline : '\n' ∉ line)
    (h : convertLineStep acc line = some acc') : ∀ l ∈ acc', '\n' ∉ l := by
  have hbl : '\n' ∉ convertLineToBraille line := newline_not_mem_convertLine hline
  simp only [convertLineStep] at h
  split at h
  · cases hw : wrapBrailleLine (convertLineToBraille line) 40 with
    | none =>
      rw [hw] at h
      exact Option.noConfusion h
    | some w =>
      rw [hw] at h
      have hval : acc ++ w = acc' := Option.some_inj.mp h
      subst hval
      intro l hl
      rcases List.mem_append.mp hl with h1 | h1
      · exact hacc l h1
      · exact wrapBrailleLine_no_newline hbl hw l h1
  · have hval : acc ++ [convertLineToBraille line] = acc' := Option.some_inj.mp h
    subst hval
    intro l hl
    rcases List.mem_append.mp hl with h1 | h1
    · exact hacc l h1
    · rw [List.mem_singleton] at h1
      exact h1 ▸ hbl

theorem convertFold_no_newline :
    ∀ (lines : List (List Char)) (acc bls : List (List Char)),
      (∀ p ∈ lines, '\n' ∉ p) → (∀ l ∈ acc, '\n' ∉ l) →
      List.foldlM convertLineStep acc lines = some bls →
      ∀ l ∈ bls, '\n' ∉ l := by
  intro lines
  induction lines with
  | nil =>
    intro acc bls _ hacc h
    exact (Option.some_inj.mp h) ▸ hacc
  | cons p ps ih =>
    intro acc bls hlines hacc h
    simp only [List.foldlM] at h
    cases hstep : convertLineStep acc p with
    | none =>
      rw [hstep] at h
      exact Option.noConfusion h
    | some acc1 =>
      rw [hstep] at h
      exact ih acc1 bls
        (fun x hx => hlines x (List.mem_cons_of_mem _ hx))
        (convertLineStep_no_newline hacc (hlines p (List.mem_cons_self _ _)) hstep) h

theorem convertBrailleLines_no_newline {text : List Char}
    {bls : List (List Char)} (h : convertBrailleLines text = some bls) :
    ∀ bl ∈ bls, '\n' ∉ bl := by
  unfold convertBrailleLines at h
  have hlines : ∀ p ∈ splitOnChar '\n' text, '\n' ∉ p :=
    fun p hp => sep_not_mem_of_mem_splitOnChar '\n' text p hp
  exact convertFold_no_newline _ _ _ hlines (by simp) h

/-- Unfolding `convertWithLocalMapping` once the line accumulation is
known. -/
theorem convertWithLocalMapping_eq {text : List Char} {bls : List (List Char)}
    (h : convertBrailleLines text = some bls) :
    convertWithLocalMapping text =
      some ⟨joinSep '\n' bls, mathCeilNat ((bls.length : ℚ) / 25)⟩ := by
  unfold convertWithLocalMapping
  rw [h]
  rfl

/-- `Math.ceil(n / 25) = 1` for `1 ≤ n ≤ 25`. -/
theorem mathCeilNat_div25_one {n : Nat} (h1 : 1 ≤ n) (h2 : n ≤ 25) :
    mathCeilNat ((n : ℚ) / 25) = 1 := by
  have h25 : (0 : ℚ) < 25 := by norm_num
  have hz : (⌈(n : ℚ) / 25⌉ : ℤ) = 1 := by
    rw [Int.ceil_eq_iff]
    constructor
    · push_cast
      have hn : (0 : ℚ) < (n : ℚ) := by exact_mod_cast h1
      have := div_pos hn h25
      linarith
    · push_cast
      rw [div_le_one h25]
      exact_mod_cast h2
  unfold mathCeilNat
  rw [hz]
  rfl

/-! ## Claim theorems for the Braille transliterator -/

/-- **C1** (code bug): the word-wrap does not keep output lines within 40
cells.  On the input line `ab` + space + 41 `c`s (Braille rendering 44
cells, so the wrapper runs), the 41-cell word is emitted as one unsplit
output line of 41 > 40 cells — the `while` loop meant to hard-split it
never shortens `word` (`word.substring(maxLength)` is evaluated and
discarded), and when such a word arrives with an empty `currentLine` that
loop never terminates, as `wrapBrailleLine` on the lone 41-cell word
shows. -/
theorem c1_wrap_emits_oversized_line :
    convertWithLocalMapping ('a' :: 'b' :: ' ' :: List.replicate 41 'c') =
      some ⟨'⠁' :: '⠃' :: '\n' :: List.replicate 41 '⠉', 1⟩ ∧
    (∃ l ∈ splitOnChar '\n' ('⠁' :: '⠃' :: '\n' :: List.replicate 41 '⠉'),
      40 < l.length) ∧
    wrapBrailleLine (List.replicate 41 '⠉') 40 = none := by
  refine ⟨?_, by decide, by decide⟩
  have hb : convertBrailleLines ('a' :: 'b' :: ' ' :: List.replicate 41 'c') =
      some [['⠁', '⠃'], List.replicate 41 '⠉'] := by decide
  rw [convertWithLocalMapping_eq hb,
      mathCeilNat_div25_one (n := [['⠁', '⠃'], List.replicate 41 '⠉'].length)
        (by decide) (by decide)]
  decide

/-- **C3** (code bug): the per-character loop iterates over
`line.toLowerCase()`, so its uppercase branch (`'⠠' + map[lower]`) is
unreachable and no capital indicator is ever emitted: transliterating
`"Ab 1"` yields plain `a`, `b`, space, numeric-sign+`a` with no `⠠` cell,
where the claim expects `⠠⠁⠃ ⠼⠁`. -/
theorem c3_capital_indicator_missing :
    convertLineToBraille ("Ab 1".toList) = "⠁⠃ ⠼⠁".toList ∧
    '⠠' ∉ convertLineToBraille ("Ab 1".toList) :=
  ⟨by decide, by decide⟩

/-- **C4**: whenever the local conversion returns, its page count is
`Math.ceil` of the output line count over 25 (with the empty output counting
as zero lines), and a page count of zero occurs only for zero output
lines. -/
theorem c4_page_count_formula (text : List Char) (r : BrailleConversionResult)
    (h : convertWithLocalMapping text = some r) :
    (1 ≤ outputLineCount r.brailleText →
      r.pageCount = mathCeilNat ((outputLineCount r.brailleText : ℚ) / 25)) ∧
    (r.pageCount = 0 → outputLineCount r.brailleText = 0) := by
  unfold convertWithLocalMapping at h
  cases hb : convertBrailleLines text with
  | none =>
    rw [hb] at h
    exact Option.noConfusion h
  | some bls =>
    rw [hb] at h
    have hval : (⟨joinSep '\n' bls, mathCeilNat ((bls.length : ℚ) / 25)⟩ :
        BrailleConversionResult) = r := Option.some_inj.mp h
    subst hval
    have hfree := convertBrailleLines_no_newline hb
    constructor
    · intro h1
      show mathCeilNat ((bls.length : ℚ) / 25) =
        mathCeilNat ((outputLineCount (joinSep '\n' bls) : ℚ) / 25)
      have hne : joinSep '\n' bls ≠ [] := by
        intro he
        have hz : outputLineCount (joinSep '\n' bls) = 0 := by
          unfold outputLineCount
          rw [if_pos he]
        change 1 ≤ outputLineCount (joinSep '\n' bls) at h1
        omega
      have hbne : bls ≠ [] := by
        intro hbe
        subst hbe
        exact hne rfl
      have hsplit := @splitOnChar_joinSep '\n' bls hfree hbne
      unfold outputLineCount
      rw [if_neg hne, hsplit]
    · intro h0
      have hlen : bls.length = 0 := (mathCeilNat_div25_eq_zero bls.length).mp h0
      have hbe : bls = [] := List.length_eq_zero.mp hlen
      subst hbe
      show outputLineCount (joinSep '\n' []) = 0
      simp [outputLineCount, joinSep]

/-- Witness for C4 at the input `"hi"`: one output line, page count 1. -/
theorem c4_page_count_formula_witness :
    convertWithLocalMapping ("hi".toList) = some ⟨"⠓⠊".toList, 1⟩ ∧
    ((1 ≤ outputLineCount ("⠓⠊".toList) →
      (1 : Nat) = mathCeilNat ((outputLineCount ("⠓⠊".toList) : ℚ) / 25)) ∧
     ((1 : Nat) = 0 → outputLineCount ("⠓⠊".toList) = 0)) := by
  have hb : convertBrailleLines ("hi".toList) = some ["⠓⠊".toList] := by decide
  have heq : convertWithLocalMapping ("hi".toList) = some ⟨"⠓⠊".toList, 1⟩ := by
    rw [convertWithLocalMapping_eq hb,
        mathCeilNat_div25_one (n := ["⠓⠊".toList].length) (by decide) (by decide)]
    decide
  exact ⟨heq, c4_page_count_formula ("hi".toList) ⟨"⠓⠊".toList, 1⟩ heq⟩

/-! ## Lemmas about the AI-cleanup chunker -/

theorem isPrefixList_length {pat l : List Char}
    (h : isPrefixList pat l = true) : pat.length ≤ l.length := by
  induction pat generalizing l with
  | nil => simp
  | cons p ps ih =>
    cases l with
    | nil => simp [isPrefixList] at h
    | cons c cs =>
      simp only [isPrefixList, Bool.and_eq_true, decide_eq_true_eq] at h
      have := ih h.2
      simp only [List.length_cons]
      omega

theorem lastIndexOfLe_some {l pat : List Char} :
    ∀ {i j : Nat}, lastIndexOfLe l pat i = some j →
      isPrefixList pat (l.drop j) = true := by
  intro i
  induction i with
  | zero =>
    intro j h
    unfold lastIndexOfLe at h
    split at h
    · cases h
      simpa using by assumption
    · exact Option.noConfusion h
  | succ i ih =>
    intro j h
    unfold lastIndexOfLe at h
    split at h
    · cases h
      assumption
    · exact ih h

theorem computeEndPos_le (text : List Char) (cs cp : Nat) :
    computeEndPos text cs cp ≤ text.length := by
  simp only [computeEndPos]
  split
  · split
    · rename_i hcond
      cases hlp : lastIndexOfLe text ('\n' :: '\n' :: []) (min (cp + cs) text.length) with
      | none =>
        rw [hlp] at hcond
        exfalso
        simp only [toJsIdx] at hcond
        have hge : (0 : ℚ) ≤ (cp : ℚ) + (cs : ℚ) * (1 / 2) := by positivity
        have hneg : (-1 : ℚ) < 0 := by norm_num
        linarith
      | some j =>
        have hpre := lastIndexOfLe_some hlp
        have hlen := isPrefixList_length hpre
        rw [List.length_drop] at hlen
        simp only [List.length_cons, List.length_nil, Option.getD_some] at hlen ⊢
        omega
    · split
      · rename_i hcond
        cases hls : lastIndexOfLe text ('.' :: ' ' :: []) (min (cp + cs) text.length) with
        | none =>
          rw [hls] at hcond
          exfalso
          simp only [toJsIdx] at hcond
          have hge : (0 : ℚ) ≤ (cp : ℚ) + (cs : ℚ) * (1 / 2) := by positivity
          linarith
        | some j =>
          have hpre := lastIndexOfLe_some hls
          have hlen := isPrefixList_length hpre
          rw [List.length_drop] at hlen
          simp only [List.length_cons, List.length_nil, Option.getD_some] at hlen ⊢
          omega
      · exact Nat.min_le_right _ _
  · exact Nat.min_le_right _ _

theorem computeEndPos_gt {text : List Char} {cs cp : Nat}
    (h : cp < text.length) (hcs : 0 < cs) : cp < computeEndPos text cs cp := by
  simp only [computeEndPos]
  split
  · split
    · rename_i hcond
      cases hlp : lastIndexOfLe text ('\n' :: '\n' :: []) (min (cp + cs) text.length) with
      | none =>
        rw [hlp] at hcond
        exfalso
        simp only [toJsIdx] at hcond
        have hge : (0 : ℚ) ≤ (cp : ℚ) + (cs : ℚ) * (1 / 2) := by positivity
        linarith
      | some j =>
        rw [hlp] at hcond
        simp only [toJsIdx, Option.getD_some] at hcond ⊢
        have hcs0 : (0 : ℚ) ≤ (cs : ℚ) * (1 / 2) := by positivity
        have hjq : (cp : ℚ) < (j : ℚ) := by push_cast at hcond; linarith
        have hj : cp < j := by exact_mod_cast hjq
        omega
    · split
      · rename_i hcond
        cases hls : lastIndexOfLe text ('.' :: ' ' :: []) (min (cp + cs) text.length) with
        | none =>
          rw [hls] at hcond
          exfalso
          simp only [toJsIdx] at hcond
          have hge : (0 : ℚ) ≤ (cp : ℚ) + (cs : ℚ) * (1 / 2) := by positivity
          linarith
        | some j =>
          rw [hls] at hcond
          simp only [toJsIdx, Option.getD_some] at hcond ⊢
          have hcs0 : (0 : ℚ) ≤ (cs : ℚ) * (1 / 2) := by positivity
          have hjq : (cp : ℚ) < (j : ℚ) := by push_cast at hcond; linarith
          have hj : cp < j := by exact_mod_cast hjq
          omega
      · exact Nat.lt_min.mpr ⟨by omega, h⟩
  · exact Nat.lt_min.mpr ⟨by omega, h⟩

theorem splitChunksGo_spec {text : List Char} {cs : Nat} (hcs : 0 < cs) :
    ∀ (fuel cp : Nat), text.length - cp < fuel →
      ∃ res, splitChunksGo fuel text cs cp = some res ∧
        (∀ c ∈ res, c ≠ []) ∧ res.flatten = text.drop cp := by
  intro fuel
  induction fuel with
  | zero =>
    intro cp h
    omega
  | succ fuel ih =>
    intro cp hfuel
    by_cases hcp : cp < text.length
    · have hgt := computeEndPos_gt hcp hcs
      have hle := computeEndPos_le text cs cp
      obtain ⟨res, hres, hne, hjoin⟩ := ih (computeEndPos text cs cp) (by omega)
      refine ⟨jsSubstring text cp (computeEndPos text cs cp) :: res, ?_, ?_, ?_⟩
      · simp only [splitChunksGo]
        rw [if_pos hcp, hres]
      · intro c hc
        rcases List.mem_cons.mp hc with rfl | hmem
        · intro hnil
          have hlen : (jsSubstring text cp (computeEndPos text cs cp)).length =
              min (computeEndPos text cs cp - cp) (text.length - cp) := by
            simp [jsSubstring]
          rw [hnil] at hlen
          simp only [List.length_nil] at hlen
          omega
        · exact hne c hmem
      · show jsSubstring text cp (computeEndPos text cs cp) ++ res.flatten =
          text.drop cp
        rw [hjoin]
        have hdd : text.drop (computeEndPos text cs cp) =
            (text.drop cp).drop (computeEndPos text cs cp - cp) := by
          rw [List.drop_drop]
          congr 1
          omega
        rw [jsSubstring, hdd, List.take_append_drop]
    · refine ⟨[], ?_, by simp, ?_⟩
      · simp only [splitChunksGo]
        rw [if_neg hcp]
      · rw [List.flatten_nil, List.drop_eq_nil_of_le (by omega)]

/-! ## Claim theorem for the chunker -/

/-- **C10**: for any text and positive chunk size the chunker terminates
(here: the fuelled loop returns within `length + 1` rounds because every
round strictly advances `currentPos`), every returned chunk is non-empty,
and concatenating the chunks in order restores the input exactly — the
chunks are pushed as plain `substring` slices, never trimmed or dropped. -/
theorem c10_chunker_partition (text : List Char) (chunkSize : Nat)
    (h : 0 < chunkSize) :
    ∃ chunks, splitTextIntoChunks text chunkSize = some chunks ∧
      (∀ c ∈ chunks, c ≠ []) ∧ chunks.flatten = text := by
  obtain ⟨res, hres, hne, hjoin⟩ :=
    @splitChunksGo_spec text chunkSize h (text.length + 1) 0 (by omega)
  refine ⟨res, hres, hne, ?_⟩
  rw [hjoin, List.drop_zero]

/-- Witness for C10 on a concrete text and chunk size 4. -/
theorem c10_chunker_partition_witness :
    (0 < 4 ∧
      ∃ chunks, splitTextIntoChunks ("hello world".toList) 4 = some chunks ∧
        (∀ c ∈ chunks, c ≠ []) ∧ chunks.flatten = "hello world".toList) :=
  ⟨by decide, c10_chunker_partition ("hello world".toList) 4 (by decide)⟩

/-! ## Lemmas about the AI cleanup chunk loop -/

theorem chunkNote_ne_rateLimitNote (n : Nat) : chunkNote n ≠ rateLimitNote := by
  intro h
  have h' : 'C' :: (("hunk ".toList ++ (toString n).toList ++
      ": Text cleaned and optimized".toList)) =
    'A' :: ("I processing limited due to rate limits - using original text".toList) := h
  injection h' with h1 _
  exact absurd h1 (by decide)

theorem count_rateLimitNote_ite (P : Prop) [Decidable P] (n : Nat) :
    List.count rateLimitNote (if P then [chunkNote n] else []) = 0 := by
  split
  · rw [List.count_eq_zero]
    intro hmem
    rw [List.mem_singleton] at hmem
    exact chunkNote_ne_rateLimitNote n hmem.symm
  · rfl

theorem processChunksGo_rateLimit {f : Nat → ChunkOutcome} :
    ∀ (rest : List (List Char)) (i0 k : Nat), k < rest.length →
      f (i0 + k) = ChunkOutcome.rateLimit →
      (∀ j, j < k → f (i0 + j) ≠ ChunkOutcome.rateLimit) →
      (processChunksGo f i0 rest).1.length = rest.length ∧
      (processChunksGo f i0 rest).1.drop k = rest.drop k ∧
      (processChunksGo f i0 rest).2.count rateLimitNote = 1 ∧
      (∀ j, j < k → f (i0 + j) = ChunkOutcome.err →
        (processChunksGo f i0 rest).1[j]? = rest[j]?) := by
  intro rest
  induction rest with
  | nil =>
    intro i0 k hk
    simp at hk
  | cons c rest' ih =>
    intro i0 k hk hrl hprev
    cases k with
    | zero =>
      rw [Nat.add_zero] at hrl
      simp only [processChunksGo, hrl]
      refine ⟨by simp, by simp, by simp [List.count_cons, List.count_nil], ?_⟩
      intro j hj
      omega
    | succ k' =>
      have hf0 : f i0 ≠ ChunkOutcome.rateLimit := by
        have := hprev 0 (by omega)
        simpa using this
      have hk' : k' < rest'.length := by
        simp only [List.length_cons] at hk
        omega
      have hrl' : f ((i0 + 1) + k') = ChunkOutcome.rateLimit := by
        rw [show (i0 + 1) + k' = i0 + (k' + 1) by omega]
        exact hrl
      have hprev' : ∀ j, j < k' → f ((i0 + 1) + j) ≠ ChunkOutcome.rateLimit := by
        intro j hj
        rw [show (i0 + 1) + j = i0 + (j + 1) by omega]
        exact hprev (j + 1) (by omega)
      obtain ⟨ihlen, ihdrop, ihcount, ihidx⟩ := ih (i0 + 1) k' hk' hrl' hprev'
      cases hcase : f i0 with
      | rateLimit => exact absurd hcase hf0
      | ok content =>
        simp only [processChunksGo, hcase]
        refine ⟨by simp [ihlen], by simpa using ihdrop, ?_, ?_⟩
        · rw [List.count_append, ihcount,
              count_rateLimitNote_ite _ (i0 + 1)]
        · intro j hj hferr
          cases j with
          | zero =>
            rw [Nat.add_zero] at hferr
            rw [hcase] at hferr
            exact absurd hferr (by simp)
          | succ j' =>
            simp only [List.getElem?_cons_succ]
            exact ihidx j' (by omega)
              (by rw [show (i0 + 1) + j' = i0 + (j' + 1) by omega]
                  exact hferr)
      | err =>
        simp only [processChunksGo, hcase]
        refine ⟨by simp [ihlen], by simpa using ihdrop, by simpa using ihcount, ?_⟩
        intro j hj hferr
        cases j with
        | zero => simp
        | succ j' =>
          simp only [List.getElem?_cons_succ]
          exact ihidx j' (by omega)
            (by rw [show (i0 + 1) + j' = i0 + (j' + 1) by omega]
                exact hferr)

theorem processChunksGo_no_rateLimit {g : Nat → ChunkOutcome}
    (hg : ∀ j, g j ≠ ChunkOutcome.rateLimit) :
    ∀ (rest : List (List Char)) (i0 : Nat),
      (processChunksGo g i0 rest).1.length = rest.length ∧
      (processChunksGo g i0 rest).2.count rateLimitNote = 0 ∧
      (∀ j, g (i0 + j) = ChunkOutcome.err →
        (processChunksGo g i0 rest).1[j]? = rest[j]?) := by
  intro rest
  induction rest with
  | nil =>
    intro i0
    refine ⟨rfl, rfl, ?_⟩
    intro j _
    simp [processChunksGo]
  | cons c rest' ih =>
    intro i0
    obtain ⟨ihlen, ihcount, ihidx⟩ := ih (i0 + 1)
    cases hcase : g i0 with
    | rateLimit => exact absurd hcase (hg i0)
    | ok content =>
      simp only [processChunksGo, hcase]
      refine ⟨by simp [ihlen], ?_, ?_⟩
      · rw [List.count_append, ihcount,
            count_rateLimitNote_ite _ (i0 + 1)]
      · intro j hferr
        cases j with
        | zero =>
          rw [Nat.add_zero] at hferr
          rw [hcase] at hferr
          exact absurd hferr (by simp)
        | succ j' =>
          simp only [List.getElem?_cons_succ]
          exact ihidx j'
            (by rw [show (i0 + 1) + j' = i0 + (j' + 1) by omega]
                exact hferr)
    | err =>
      simp only [processChunksGo, hcase]
      refine ⟨by simp [ihlen], by simpa using ihcount, ?_⟩
      intro j hferr
      cases j with
      | zero => simp
      | succ j' =>
        simp only [List.getElem?_cons_succ]
        exact ihidx j'
          (by rw [show (i0 + 1) + j' = i0 + (j' + 1) by omega]
              exact hferr)

/-! ## Claim theorems for the AI cleanup client -/

/-- **C5**: with no configured credential, `cleanAndValidateText` returns
the input unchanged immediately — cleaned text is the input, the word count
is the `\s+`-token count, the single enhancement is the disabled note, and
progress is reported once as complete (`1`). -/
theorem c5_no_key_passthrough (env : GroqEnv) (text : List Char)
    (h : env.hasKey = false) :
    cleanAndValidateText env text =
      some (⟨text, (jsSplitWs text).length, [disabledNote]⟩, [1]) := by
  unfold cleanAndValidateText
  rw [h]
  rfl

/-- Witness for C5: Scenario C, input `"some text"` with no credential
yields that text unchanged, word count 2, and exactly the disabled note. -/
theorem c5_no_key_passthrough_witness :
    (({ hasKey := false, probeRateLimited := false,
        chunkOutcome := fun _ => ChunkOutcome.err } : GroqEnv).hasKey = false) ∧
    cleanAndValidateText
        ⟨false, false, fun _ => ChunkOutcome.err⟩ ("some text".toList) =
      some (⟨"some text".toList, 2, [disabledNote]⟩, [1]) := by
  refine ⟨rfl, ?_⟩
  rw [c5_no_key_passthrough ⟨false, false, fun _ => ChunkOutcome.err⟩
      ("some text".toList) rfl]
  have hw : (jsSplitWs ("some text".toList)).length = 2 := by decide
  rw [hw]

/-- **C6**: in the chunk loop, the first rate-limit-shaped error at index
`i` stops further AI calls: every chunk from `i` on is passed through
verbatim, exactly one rate-limit note is appended, and the output still has
one entry per chunk; any other per-chunk error before `i` (or, when no
rate-limit error ever occurs, anywhere) passes only that chunk through
verbatim while processing continues — the loop always returns a full
result. -/
theorem c6_rate_limit_short_circuit (chunks : List (List Char))
    (f : Nat → ChunkOutcome) (i : Nat) (hi : i < chunks.length)
    (hrl : f i = ChunkOutcome.rateLimit)
    (hprev : ∀ j, j < i → f j ≠ ChunkOutcome.rateLimit) :
    ((processChunks f chunks).1.length = chunks.length ∧
     (processChunks f chunks).1.drop i = chunks.drop i ∧
     (processChunks f chunks).2.count rateLimitNote = 1 ∧
     (∀ j, j < i → f j = ChunkOutcome.err →
        (processChunks f chunks).1[j]? = chunks[j]?)) ∧
    (∀ g : Nat → ChunkOutcome, (∀ j, g j ≠ ChunkOutcome.rateLimit) →
      (processChunks g chunks).1.length = chunks.length ∧
      (processChunks g chunks).2.count rateLimitNote = 0 ∧
      (∀ j, g j = ChunkOutcome.err →
        (processChunks g chunks).1[j]? = chunks[j]?)) := by
  constructor
  · have hmain := processChunksGo_rateLimit chunks 0 i hi
      (by simpa using hrl) (by intro j hj; simpa using hprev j hj)
    simpa [processChunks] using hmain
  · intro g hg
    have hmain := processChunksGo_no_rateLimit hg chunks 0
    simpa [processChunks] using hmain

/-- Witness for C6: three chunks, an ordinary error on chunk 0 and a
rate-limit error on chunk 1. -/
theorem c6_rate_limit_short_circuit_witness :
    ((1 < ([['a'], ['b'], ['c']] : List (List Char)).length) ∧
     ((fun n => if n = 0 then ChunkOutcome.err else ChunkOutcome.rateLimit) 1 =
        ChunkOutcome.rateLimit) ∧
     (∀ j, j < 1 →
        (fun n => if n = 0 then ChunkOutcome.err else ChunkOutcome.rateLimit) j ≠
          ChunkOutcome.rateLimit)) ∧
    (((processChunks
          (fun n => if n = 0 then ChunkOutcome.err else ChunkOutcome.rateLimit)
          [['a'], ['b'], ['c']]).1.length =
        ([['a'], ['b'], ['c']] : List (List Char)).length ∧
      (processChunks
          (fun n => if n = 0 then ChunkOutcome.err else ChunkOutcome.rateLimit)
          [['a'], ['b'], ['c']]).1.drop 1 =
        ([['a'], ['b'], ['c']] : List (List Char)).drop 1 ∧
      (processChunks
          (fun n => if n = 0 then ChunkOutcome.err else ChunkOutcome.rateLimit)
          [['a'], ['b'], ['c']]).2.count rateLimitNote = 1 ∧
      (∀ j, j < 1 →
        (fun n => if n = 0 then ChunkOutcome.err else ChunkOutcome.rateLimit) j =
          ChunkOutcome.err →
        (processChunks
            (fun n => if n = 0 then ChunkOutcome.err else ChunkOutcome.rateLimit)
            [['a'], ['b'], ['c']]).1[j]? =
          ([['a'], ['b'], ['c']] : List (List Char))[j]?)) ∧
     (∀ g : Nat → ChunkOutcome, (∀ j, g j ≠ ChunkOutcome.rateLimit) →
      (processChunks g [['a'], ['b'], ['c']]).1.length =
        ([['a'], ['b'], ['c']] : List (List Char)).length ∧
      (processChunks g [['a'], ['b'], ['c']]).2.count rateLimitNote = 0 ∧
      (∀ j, g j = ChunkOutcome.err →
        (processChunks g [['a'], ['b'], ['c']]).1[j]? =
          ([['a'], ['b'], ['c']] : List (List Char))[j]?))) :=
  ⟨⟨by decide, by decide, by decide⟩,
    c6_rate_limit_short_circuit [['a'], ['b'], ['c']]
      (fun n => if n = 0 then ChunkOutcome.err else ChunkOutcome.rateLimit) 1
      (by decide) (by decide) (by decide)⟩

/-! ## Claim theorems for the text extractor -/

/-- **C7**: a successfully fetched URL body that is not classified as PDF
(content-type does not contain `application/pdf`, the lower-cased URL does
not end in `.pdf`, the first four bytes are not `%PDF`) is returned as plain
text unchanged, with page count 1 and the body's size. -/
theorem c7_url_plain_text (env : PdfEnv) (url contentType buffer : List Char)
    (h : urlBodyIsPdf url contentType buffer = false) :
    extractTextFromUrl env url contentType buffer true =
      Except.ok ⟨buffer, 1, buffer.length⟩ := by
  unfold extractTextFromUrl
  rw [h]
  rfl

/-- Witness for C7: Scenario A, the plain ASCII body `"Hello World"` fetched
as `text/plain` from a non-`.pdf` URL comes back unchanged with page
count 1. -/
theorem c7_url_plain_text_witness :
    (urlBodyIsPdf ("https://example.com/hello.txt".toList)
        ("text/plain".toList) ("Hello World".toList) = false) ∧
    extractTextFromUrl
        ⟨true, none, true, true, Pdf2JsonOutcome.dataError, Except.error [], true⟩
        ("https://example.com/hello.txt".toList) ("text/plain".toList)
        ("Hello World".toList) true =
      Except.ok ⟨"Hello World".toList, 1, ("Hello World".toList).length⟩ :=
  ⟨by decide,
    c7_url_plain_text
      ⟨true, none, true, true, Pdf2JsonOutcome.dataError, Except.error [], true⟩
      ("https://example.com/hello.txt".toList) ("text/plain".toList)
      ("Hello World".toList) (by decide)⟩

/-- **C2** counterexample: when the `pdf-parse` invocation raises (a
corrupt or unreadable buffer) and the OCR fallback also raises (its own
`OCR extracted very little text` check), `extractTextFromFile` raises
`Failed to extract text from PDF file: All text extraction methods failed`
instead of returning a diagnostic placeholder result. -/
theorem c2_extraction_raises :
    extractTextFromFile
        ⟨true, none, true, true, Pdf2JsonOutcome.dataError,
         Except.error ("OCR extracted very little text".toList), true⟩
        ("buf".toList) =
      Except.error
        ("Failed to extract text from PDF file: All text extraction methods failed".toList) := by
  rfl

/-- The inner `try` body of the parse chain never raises once `pdf-parse`
has imported and returned data: every subsequent branch resolves to a
result. -/
theorem extractInner_isOk (env : PdfEnv) (d : PdfParseData)
    (himp : env.pdfParseImportOk = true) (hp : env.parseResult = some d) :
    (extractInner env).isOk = true := by
  unfold extractInner
  rw [himp, hp]
  simp only [Bool.not_true]
  split
  · simp at *
  · split
    · rfl
    · split
      · rfl
      · split
        · split <;> rfl
        · split <;> rfl

/-- The insufficient-text path with a `pdf2json` `dataError` resolves to the
fixed placeholder with page count 1. -/
theorem extractInner_dataError (env : PdfEnv) (d : PdfParseData)
    (himp : env.pdfParseImportOk = true) (hp : env.parseResult = some d)
    (hle : (collapseWs (jsTrim d.text)).length ≤ 100)
    (h2imp : env.pdf2jsonImportOk = true) (hcon : env.pdf2jsonConstructOk = true)
    (hout : env.pdf2jsonOutcome = Pdf2JsonOutcome.dataError) :
    extractInner env = Except.ok ("PDF parsing failed with pdf2json".toList, 1) := by
  unfold extractInner
  rw [himp, hp, h2imp, hcon, hout]
  have hgt : ¬((collapseWs (jsTrim d.text)).length > 100) := by omega
  simp [hgt]

/-- **C2** (amended): whenever the primary `pdf-parse` step returns data —
in particular whenever there is extracted text to judge insufficient — the
fallback chain never raises, and on the insufficient-text path whose
`pdf2json` attempt reports `dataError` it resolves to the fixed diagnostic
placeholder string with page count 1; extraction raises only when the
primary parse itself and the OCR fallback both raise
(`c2_extraction_raises`). -/
theorem c2_no_raise_when_parse_returns (env : PdfEnv) (d : PdfParseData)
    (himp : env.pdfParseImportOk = true) (hp : env.parseResult = some d) :
    (extractTextWithPdfParse env).isOk = true ∧
    ((collapseWs (jsTrim d.text)).length ≤ 100 →
      env.pdf2jsonImportOk = true → env.pdf2jsonConstructOk = true →
      env.pdf2jsonOutcome = Pdf2JsonOutcome.dataError →
      extractTextWithPdfParse env =
        Except.ok ("PDF parsing failed with pdf2json".toList, 1)) := by
  constructor
  · have hin := extractInner_isOk env d himp hp
    unfold extractTextWithPdfParse
    cases hcase : extractInner env with
    | ok r => rfl
    | error e =>
      rw [hcase] at hin
      exact Bool.noConfusion hin
  · intro hle h2imp hcon hout
    have hinner := extractInner_dataError env d himp hp hle h2imp hcon hout
    unfold extractTextWithPdfParse
    rw [hinner]

/-- Witness for the amended C2: a parse that returns empty text with a
`pdf2json` `dataError` resolves (without raising) to the placeholder. -/
theorem c2_no_raise_when_parse_returns_witness :
    ((⟨true, some ⟨[], 3⟩, true, true, Pdf2JsonOutcome.dataError,
        Except.error [], true⟩ : PdfEnv).pdfParseImportOk = true ∧
     (⟨true, some ⟨[], 3⟩, true, true, Pdf2JsonOutcome.dataError,
        Except.error [], true⟩ : PdfEnv).parseResult = some ⟨[], 3⟩) ∧
    ((extractTextWithPdfParse
        ⟨true, some ⟨[], 3⟩, true, true, Pdf2JsonOutcome.dataError,
         Except.error [], true⟩).isOk = true ∧
     ((collapseWs (jsTrim (⟨[], 3⟩ : PdfParseData).text)).length ≤ 100 →
      (⟨true, some ⟨[], 3⟩, true, true, Pdf2JsonOutcome.dataError,
        Except.error [], true⟩ : PdfEnv).pdf2jsonImportOk = true →
      (⟨true, some ⟨[], 3⟩, true, true, Pdf2JsonOutcome.dataError,
        Except.error [], true⟩ : PdfEnv).pdf2jsonConstructOk = true →
      (⟨true, some ⟨[], 3⟩, true, true, Pdf2JsonOutcome.dataError,
        Except.error [], true⟩ : PdfEnv).pdf2jsonOutcome =
        Pdf2JsonOutcome.dataError →
      extractTextWithPdfParse
          ⟨true, some ⟨[], 3⟩, true, true, Pdf2JsonOutcome.dataError,
           Except.error [], true⟩ =
        Except.ok ("PDF parsing failed with pdf2json".toList, 1))) :=
  ⟨⟨rfl, rfl⟩,
    c2_no_raise_when_parse_returns
      ⟨true, some ⟨[], 3⟩, true, true, Pdf2JsonOutcome.dataError,
       Except.error [], true⟩ ⟨[], 3⟩ rfl rfl⟩

/-! ## Lemmas about the orchestrator's progress writes -/

/-- An AI-cleanup callback write always rounds to 30:
`Math.round(30 + p * 0.4) = 30` for any fraction `p` in `[0, 1]`. -/
theorem jsRoundNat_ai {p : ℚ} (h0 : 0 ≤ p) (h1 : p ≤ 1) :
    jsRoundNat (30 + p * (4 / 10)) = 30 := by
  unfold jsRoundNat
  have hmul0 : (0 : ℚ) ≤ p * (4 / 10) := by positivity
  have hmul1 : p * (4 / 10) ≤ 4 / 10 := by nlinarith
  have hfl : (⌊(30 : ℚ) + p * (4 / 10) + 1 / 2⌋ : ℤ) = 30 := by
    rw [Int.floor_eq_iff]
    constructor
    · push_cast
      linarith
    · push_cast
      linarith
  rw [hfl]
  rfl

/-- A Braille-conversion callback write always rounds to 75:
`Math.round(75 + p * 0.15) = 75` for any fraction `p` in `[0, 1]`. -/
theorem jsRoundNat_braille {p : ℚ} (h0 : 0 ≤ p) (h1 : p ≤ 1) :
    jsRoundNat (75 + p * (15 / 100)) = 75 := by
  unfold jsRoundNat
  have hmul0 : (0 : ℚ) ≤ p * (15 / 100) := by positivity
  have hmul1 : p * (15 / 100) ≤ 15 / 100 := by nlinarith
  have hfl : (⌊(75 : ℚ) + p * (15 / 100) + 1 / 2⌋ : ℤ) = 75 := by
    rw [Int.floor_eq_iff]
    constructor
    · push_cast
      linarith
    · push_cast
      linarith
  rw [hfl]
  rfl

theorem localBrailleFracs_bounds (m : Nat) :
    ∀ p ∈ localBrailleFracs m, 0 ≤ p ∧ p ≤ 1 := by
  unfold localBrailleFracs
  rw [List.forall_mem_map]
  intro k hk
  rw [List.mem_range] at hk
  have hm : 0 < m := by omega
  have hmq : (0 : ℚ) < (m : ℚ) := by exact_mod_cast hm
  constructor
  · positivity
  · rw [div_le_one hmq]
    have hk1 : (k : ℚ) + 1 ≤ (m : ℚ) := by exact_mod_cast hk
    linarith

theorem aiProgressFracs_bounds (hk : Bool) (n : Nat) :
    ∀ p ∈ aiProgressFracs hk n, 0 ≤ p ∧ p ≤ 1 := by
  have hmap : ∀ p ∈ (List.range n).map (fun (i : Nat) => (i : ℚ) / (n : ℚ)),
      0 ≤ p ∧ p ≤ 1 := by
    rw [List.forall_mem_map]
    intro i hi
    rw [List.mem_range] at hi
    have hn : 0 < n := by omega
    have hnq : (0 : ℚ) < (n : ℚ) := by exact_mod_cast hn
    constructor
    · positivity
    · rw [div_le_one hnq]
      exact_mod_cast le_of_lt hi
  intro p hp
  unfold aiProgressFracs at hp
  split at hp
  · rcases List.mem_append.mp hp with h1 | h1
    · exact hmap p h1
    · rw [List.mem_singleton] at h1
      subst h1
      norm_num
  · rw [List.mem_singleton] at hp
    subst hp
    norm_num

theorem brailleProgressFracs_bounds (o : BrailleOutcome) :
    ∀ p ∈ brailleProgressFracs o, 0 ≤ p ∧ p ≤ 1 := by
  intro p hp
  cases o with
  | online =>
    simp only [brailleProgressFracs] at hp
    rcases List.mem_cons.mp hp with rfl | hp'
    · norm_num
    · rw [List.mem_singleton] at hp'
      subst hp'
      norm_num
  | onlineEmptyLocal m =>
    simp only [brailleProgressFracs] at hp
    rcases List.mem_cons.mp hp with rfl | hp'
    · norm_num
    · rcases List.mem_cons.mp hp' with rfl | hp''
      · norm_num
      · exact localBrailleFracs_bounds m p hp''
  | localDone m =>
    simp only [brailleProgressFracs] at hp
    rcases List.mem_cons.mp hp with rfl | hp'
    · norm_num
    · exact localBrailleFracs_bounds m p hp'
  | localHung m k =>
    simp only [brailleProgressFracs] at hp
    rcases List.mem_cons.mp hp with rfl | hp'
    · norm_num
    · exact localBrailleFracs_bounds m p (List.take_subset k _ hp')

theorem filterMap_progress_const (l : List ℚ) (f : ℚ → JobUpdate) (c : Nat)
    (h : ∀ p ∈ l, (f p).progress = some c) :
    (l.map f).filterMap (fun u => u.progress) = List.replicate l.length c := by
  induction l with
  | nil => rfl
  | cons p ps ih =>
    rw [List.map_cons, List.filterMap_cons]
    rw [h p (List.mem_cons_self p ps)]
    rw [ih (fun q hq => h q (List.mem_cons_of_mem _ hq))]
    rfl

theorem chain'_le_cons {x : Nat} {l : List Nat}
    (hx : ∀ y ∈ l.head?, x ≤ y) (hl : List.Chain' (· ≤ ·) l) :
    List.Chain' (· ≤ ·) (x :: l) :=
  List.chain'_cons'.mpr ⟨hx, hl⟩

theorem mem_head?_replicate_append {n c : Nat} {l : List Nat} {y : Nat}
    (h : y ∈ (List.replicate n c ++ l).head?) : y = c ∨ y ∈ l.head? := by
  cases n with
  | zero =>
    right
    simpa using h
  | succ n =>
    left
    simp [List.replicate_succ] at h
    omega

theorem chain'_replicate_append (n c : Nat) (l : List Nat)
    (hl : List.Chain' (· ≤ ·) l) (hc : ∀ y ∈ l.head?, c ≤ y) :
    List.Chain' (· ≤ ·) (List.replicate n c ++ l) := by
  induction n with
  | zero => simpa using hl
  | succ n ih =>
    rw [List.replicate_succ, List.cons_append]
    refine chain'_le_cons ?_ ih
    intro y hy
    rcases mem_head?_replicate_append hy with rfl | hy'
    · exact le_refl _
    · exact hc y hy'

/-- The full write list of a successful run. -/
theorem processWrites_success (env : OrchEnv) (hjob : env.jobFound = true)
    (hex : extractStageOk env = true) (hsc : env.saveCleanedOk = true)
    (hbr : brailleReturns env = true) (hsb : env.saveBrailleOk = true)
    (hsr : env.saveReportOk = true) :
    processWrites env =
      (if env.atCapacity then
        [{ status := some "queued", stage := some "Waiting in queue",
           progress := some 5 }]
       else []) ++
      ({ status := some "extracting", stage := some "Text Extraction",
         progress := some 10 } : JobUpdate) ::
      ({ progress := some 25 } : JobUpdate) ::
      ({ status := some "ai_reviewing", stage := some "AI Text Review & Cleanup",
         progress := some 30 } : JobUpdate) ::
      ((aiProgressFracs env.apiKeyPresent env.aiChunkCount).map aiProgressWrite ++
       ({ progress := some 70 } : JobUpdate) ::
       ({ status := some "converting", stage := some "Braille Conversion",
          progress := some 75 } : JobUpdate) ::
       ((brailleProgressFracs env.brailleOutcome).map brailleProgressWrite ++
        ({ progress := some 90 } : JobUpdate) ::
        ({ stage := some "AI Quality Validation", progress := some 95 } : JobUpdate) ::
        [{ status := some "completed", stage := some "Complete",
           progress := some 100 }])) := by
  unfold processWrites aiStageWrites brailleStageWrites
  rw [hjob, hex, hsc, hbr, hsb, hsr]
  simp

/-- The progress values of a successful run: the fixed per-stage writes with
constant-30 and constant-75 callback blocks in between. -/
theorem progressTrace_success (env : OrchEnv) (hjob : env.jobFound = true)
    (hex : extractStageOk env = true) (hsc : env.saveCleanedOk = true)
    (hbr : brailleReturns env = true) (hsb : env.saveBrailleOk = true)
    (hsr : env.saveReportOk = true) :
    progressTrace env =
      (if env.atCapacity then [5] else []) ++
      10 :: 25 :: 30 ::
      (List.replicate (aiProgressFracs env.apiKeyPresent env.aiChunkCount).length 30 ++
       70 :: 75 ::
       (List.replicate (brailleProgressFracs env.brailleOutcome).length 75 ++
        [90, 95, 100])) := by
  have hai : ((aiProgressFracs env.apiKeyPresent env.aiChunkCount).map
      aiProgressWrite).filterMap (fun u => u.progress) =
      List.replicate (aiProgressFracs env.apiKeyPresent env.aiChunkCount).length 30 := by
    refine filterMap_progress_const _ _ _ ?_
    intro p hp
    obtain ⟨h0, h1⟩ := aiProgressFracs_bounds env.apiKeyPresent env.aiChunkCount p hp
    simp [aiProgressWrite, jsRoundNat_ai h0 h1]
  have hbrw : ((brailleProgressFracs env.brailleOutcome).map
      brailleProgressWrite).filterMap (fun u => u.progress) =
      List.replicate (brailleProgressFracs env.brailleOutcome).length 75 := by
    refine filterMap_progress_const _ _ _ ?_
    intro p hp
    obtain ⟨h0, h1⟩ := brailleProgressFracs_bounds env.brailleOutcome p hp
    simp [brailleProgressWrite, jsRoundNat_braille h0 h1]
  unfold progressTrace
  rw [processWrites_success env hjob hex hsc hbr hsb hsr]
  cases hcap : env.atCapacity with
  | true =>
    simp only [if_true, List.filterMap_append, List.filterMap_cons, hai, hbrw]
    rfl
  | false =>
    simp only [if_false, List.filterMap_append, List.filterMap_cons, hai, hbrw]
    rfl

/-! ## Claim theorems for the conversion orchestrator -/

/-- **C8**: across any successful run, the time-ordered sequence of progress
values written to the job record — the fixed per-stage writes 5?, 10, 25,
30, 70, 75, 90, 95, 100 interleaved with the AI-cleanup callback writes
(band 30–70) and the Braille-conversion callback writes (band 75–90) — is
non-decreasing.  (The interpolation multiplies the 0–1 fraction by 0.4
resp. 0.15, so every callback write lands at the band's lower edge.) -/
theorem c8_progress_monotone (env : OrchEnv) (hjob : env.jobFound = true)
    (hsucc : pipelineSucceeds env = true) :
    List.Chain' (· ≤ ·) (progressTrace env) := by
  have hflags := hsucc
  unfold pipelineSucceeds at hflags
  simp only [Bool.and_eq_true] at hflags
  obtain ⟨⟨hex, hsc⟩, hbr, hsb, hsr⟩ := hflags
  rw [progressTrace_success env hjob hex hsc hbr hsb hsr]
  generalize (aiProgressFracs env.apiKeyPresent env.aiChunkCount).length = A
  generalize (brailleProgressFracs env.brailleOutcome).length = B
  have t1 : List.Chain' (· ≤ ·) ([90, 95, 100] : List Nat) := by
    refine chain'_le_cons ?_ (chain'_le_cons ?_ (List.chain'_singleton 100))
    all_goals intro y hy; simp at hy; omega
  have t2 : List.Chain' (· ≤ ·) (List.replicate B 75 ++ [90, 95, 100]) := by
    refine chain'_replicate_append B 75 _ t1 ?_
    intro y hy
    simp at hy
    omega
  have t3 : List.Chain' (· ≤ ·) (75 :: (List.replicate B 75 ++ [90, 95, 100])) := by
    refine chain'_le_cons ?_ t2
    intro y hy
    rcases mem_head?_replicate_append hy with rfl | hy'
    · exact le_refl _
    · simp at hy'
      omega
  have t4 : List.Chain' (· ≤ ·)
      (70 :: 75 :: (List.replicate B 75 ++ [90, 95, 100])) := by
    refine chain'_le_cons ?_ t3
    intro y hy
    simp at hy
    omega
  have t5 : List.Chain' (· ≤ ·)
      (List.replicate A 30 ++ 70 :: 75 :: (List.replicate B 75 ++ [90, 95, 100])) := by
    refine chain'_replicate_append A 30 _ t4 ?_
    intro y hy
    simp at hy
    omega
  have t6 : List.Chain' (· ≤ ·)
      (30 :: (List.replicate A 30 ++ 70 :: 75 ::
        (List.replicate B 75 ++ [90, 95, 100]))) := by
    refine chain'_le_cons ?_ t5
    intro y hy
    rcases mem_head?_replicate_append hy with rfl | hy'
    · exact le_refl _
    · simp at hy'
      omega
  have t7 : List.Chain' (· ≤ ·)
      (10 :: 25 :: 30 :: (List.replicate A 30 ++ 70 :: 75 ::
        (List.replicate B 75 ++ [90, 95, 100]))) := by
    refine chain'_le_cons (by simp) (chain'_le_cons (by simp) t6)
  cases hcap : env.atCapacity with
  | true =>
    refine chain'_le_cons ?_ t7
    intro y hy
    simp at hy
    omega
  | false => exact t7

theorem getLast?_snoc {α : Type} (l : List α) (a : α) :
    (l ++ [a]).getLast? = some a := by
  induction l with
  | nil => rfl
  | cons b bs ih =>
    rw [List.cons_append]
    cases hbs : bs ++ [a] with
    | nil => simp at hbs
    | cons c cs =>
      rw [List.getLast?_cons_cons, ← hbs]
      exact ih

/-- **C9**: a stage-fatal error at any non-terminal stage — a missing
source locator, a failed storage fetch, a failed extraction, or a failed
artifact save — ends the run with exactly one final `catch` write, and the
persisted record afterwards is `status = failed`, `currentStage = Error`,
`progress = 0`; nothing is written after it (no retry). -/
theorem c9_stage_fatal_failure (env : OrchEnv) (hjob : env.jobFound = true)
    (hbr : brailleReturns env = true) (hfail : pipelineSucceeds env = false) :
    (processWrites env).getLast? = some failWrite ∧
    finalJob env = ⟨"failed", "Error", 0⟩ := by
  unfold pipelineSucceeds at hfail
  rw [hbr] at hfail
  simp only [Bool.true_and] at hfail
  have hform : ∃ pre, processWrites env = pre ++ [failWrite] := by
    cases hex : extractStageOk env with
    | false =>
      refine ⟨(if env.atCapacity then
          [⟨some "queued", some "Waiting in queue", some 5⟩] else []) ++
          [⟨some "extracting", some "Text Extraction", some 10⟩], ?_⟩
      unfold processWrites
      rw [hjob, hex]
      simp
    | true =>
      rw [hex] at hfail
      simp only [Bool.true_and] at hfail
      cases hsc : env.saveCleanedOk with
      | false =>
        refine ⟨(if env.atCapacity then
            [⟨some "queued", some "Waiting in queue", some 5⟩] else []) ++
            [⟨some "extracting", some "Text Extraction", some 10⟩,
             ⟨none, none, some 25⟩,
             ⟨some "ai_reviewing", some "AI Text Review & Cleanup", some 30⟩] ++
            (aiProgressFracs env.apiKeyPresent env.aiChunkCount).map
              aiProgressWrite, ?_⟩
        unfold processWrites aiStageWrites
        rw [hjob, hex, hsc]
        simp
      | true =>
        rw [hsc] at hfail
        simp only [Bool.true_and] at hfail
        cases hsb : env.saveBrailleOk with
        | false =>
          refine ⟨(if env.atCapacity then
              [⟨some "queued", some "Waiting in queue", some 5⟩] else []) ++
              [⟨some "extracting", some "Text Extraction", some 10⟩,
               ⟨none, none, some 25⟩,
               ⟨some "ai_reviewing", some "AI Text Review & Cleanup", some 30⟩] ++
              (aiProgressFracs env.apiKeyPresent env.aiChunkCount).map
                aiProgressWrite ++
              [⟨none, none, some 70⟩,
               ⟨some "converting", some "Braille Conversion", some 75⟩] ++
              (brailleProgressFracs env.brailleOutcome).map
                brailleProgressWrite, ?_⟩
          unfold processWrites aiStageWrites brailleStageWrites
          rw [hjob, hex, hsc, hbr, hsb]
          simp
        | true =>
          rw [hsb] at hfail
          simp only [Bool.true_and] at hfail
          refine ⟨(if env.atCapacity then
              [⟨some "queued", some "Waiting in queue", some 5⟩] else []) ++
              [⟨some "extracting", some "Text Extraction", some 10⟩,
               ⟨none, none, some 25⟩,
               ⟨some "ai_reviewing", some "AI Text Review & Cleanup", some 30⟩] ++
              (aiProgressFracs env.apiKeyPresent env.aiChunkCount).map
                aiProgressWrite ++
              [⟨none, none, some 70⟩,
               ⟨some "converting", some "Braille Conversion", some 75⟩] ++
              (brailleProgressFracs env.brailleOutcome).map
                brailleProgressWrite ++
              [⟨none, none, some 90⟩,
               ⟨none, some "AI Quality Validation", some 95⟩], ?_⟩
          unfold processWrites aiStageWrites brailleStageWrites
          rw [hjob, hex, hsc, hbr, hsb, hfail]
          simp
  obtain ⟨pre, hpre⟩ := hform
  constructor
  · rw [hpre]
    exact getLast?_snoc pre failWrite
  · unfold finalJob
    rw [hpre, List.foldl_append]
    rfl

/-- Witness for C8: a concrete successful run (queued first, PDF source,
three AI chunks, local Braille over two lines) has a non-decreasing
progress trace. -/
theorem c8_progress_monotone_witness :
    ((⟨true, true, true, true, false, true, true, true, 3, true,
        BrailleOutcome.localDone 2, true, true⟩ : OrchEnv).jobFound = true ∧
     pipelineSucceeds
        ⟨true, true, true, true, false, true, true, true, 3, true,
         BrailleOutcome.localDone 2, true, true⟩ = true) ∧
    List.Chain' (· ≤ ·)
      (progressTrace
        ⟨true, true, true, true, false, true, true, true, 3, true,
         BrailleOutcome.localDone 2, true, true⟩) :=
  ⟨⟨rfl, rfl⟩,
    c8_progress_monotone
      ⟨true, true, true, true, false, true, true, true, 3, true,
       BrailleOutcome.localDone 2, true, true⟩ rfl rfl⟩

/-- Witness for C9: Scenario E, a PDF job without a source locator fails
during extraction and is persisted as `failed` / `Error` / progress 0. -/
theorem c9_stage_fatal_failure_witness :
    ((⟨false, true, true, false, false, true, true, false, 0, true,
        BrailleOutcome.online, true, true⟩ : OrchEnv).jobFound = true ∧
     brailleReturns
        ⟨false, true, true, false, false, true, true, false, 0, true,
         BrailleOutcome.online, true, true⟩ = true ∧
     pipelineSucceeds
        ⟨false, true, true, false, false, true, true, false, 0, true,
         BrailleOutcome.online, true, true⟩ = false) ∧
    ((processWrites
        ⟨false, true, true, false, false, true, true, false, 0, true,
         BrailleOutcome.online, true, true⟩).getLast? = some failWrite ∧
     finalJob
        ⟨false, true, true, false, false, true, true, false, 0, true,
         BrailleOutcome.online, true, true⟩ = ⟨"failed", "Error", 0⟩) :=
  ⟨⟨rfl, rfl, rfl⟩,
    c9_stage_fatal_failure
      ⟨false, true, true, false, false, true, true, false, 0, true,
       BrailleOutcome.online, true, true⟩ rfl rfl rfl⟩
